import Mathlib

/-!
Verification development for the Collaborative-Canvas repository.

The server keeps one mutable drawing log per room (`createDrawingState` in
`server/state.js`): an array `ops` of operation records and a `redoStack` of
operation ids.  Its five operations `appendOp`, `patchPoints`, `globalUndo`,
`globalRedo` and `clear` are embedded below as pure functions on a
`DrawingState`.  JavaScript's `Array.prototype.sort` (stable per the
ECMAScript specification) is embedded as a structural stable insertion sort
`jsSort`.  The client-side reconciliation handlers of
`client/modules/canvas.ts` (`onStrokeAppended`, `onStrokePatched`,
`onWholeStateReplaced`) are embedded further down on a `ClientState`.

Numbers: timestamps are embedded as `Nat` milliseconds, point coordinates as
`Int` (the claims under study treat coordinates opaquely); JavaScript
truthiness of an optional number (`x || d`, where both `undefined` and `0`
are falsy) is embedded by `jsOr`.  `String.localeCompare` is embedded as
lexicographic string comparison `userCmp` via `compare`.
-/

/-- A captured point `{x, y, t}` (`canvas.ts`). Coordinates are embedded as
integers; the claims treat them as opaque data. -/
structure Point where
  x : Int
  y : Int
  t : Int
deriving DecidableEq, Repr

/-- JavaScript `v || d` on an optional number: `undefined` and `0` are falsy. -/
def jsOr : Option Nat → Nat → Nat
  | some v, d => if v = 0 then d else v
  | none, d => d

/-- An operation as received by the server log (`appendOp(op)`'s argument):
the fields of the wire payload that the log reads or stores.  `timestamp`,
`serverTimestamp` and `isDeleted` may or may not be present on the wire
(e.g. a saved-snapshot record carries all three). -/
structure OpIn where
  id : String
  userId : String
  points : List Point
  timestamp : Option Nat
  serverTimestamp : Option Nat
  isDeleted : Bool
deriving DecidableEq, Repr

/-- An operation record as stored in the room log after `appendOp` filled in
`isDeleted`, `serverTimestamp` and `timestamp` (`server/state.js`). -/
structure StoredOp where
  id : String
  userId : String
  points : List Point
  timestamp : Nat
  serverTimestamp : Nat
  isDeleted : Bool
deriving DecidableEq, Repr

/-- Embedding of `a.userId.localeCompare(b.userId)` as a signed integer
produced from lexicographic string comparison. -/
def userCmp (a b : String) : Int :=
  match compare a b with
  | Ordering.lt => -1
  | Ordering.eq => 0
  | Ordering.gt => 1

/-- The three-tier comparator body shared verbatim by `server/state.js`
(`appendOp`'s sort) and the client sorters: timestamp first, then server
timestamp, then user id. -/
def tripleCmp : Nat × Nat × String → Nat × Nat × String → Int
  | (t1, s1, u1), (t2, s2, u2) =>
    if t1 ≠ t2 then (t1 : Int) - (t2 : Int)
    else if s1 ≠ s2 then (s1 : Int) - (s2 : Int)
    else userCmp u1 u2

/-- Sort key of a stored operation: `(timestamp, serverTimestamp, userId)`. -/
def opKey (o : StoredOp) : Nat × Nat × String :=
  (o.timestamp, o.serverTimestamp, o.userId)

/-- The server log comparator of `appendOp` in `server/state.js`. -/
def cmpOps (a b : StoredOp) : Int :=
  tripleCmp (opKey a) (opKey b)

/-- Boolean order used to run the stable sort: `cmpOps a b <= 0` means `a`
need not come after `b`. -/
def opLE (a b : StoredOp) : Bool :=
  decide (cmpOps a b ≤ 0)

/-- Insert `x` into `l` after every element `y` with `le y x`; the building
block of the stable insertion sort. -/
def insertSorted (le : α → α → Bool) (x : α) : List α → List α
  | [] => [x]
  | y :: ys => if le y x then y :: insertSorted le x ys else x :: y :: ys

/-- Tail loop of the stable sort: fold the input from the left into an
accumulated sorted list. -/
def jsSortLoop (le : α → α → Bool) : List α → List α → List α
  | acc, [] => acc
  | acc, x :: xs => jsSortLoop le (insertSorted le x acc) xs

/-- Embedding of JavaScript's `Array.prototype.sort(cmp)` with a consistent
comparator: a stable sort (ECMAScript requires sort stability, and a stable
sort by a consistent comparator is unique).  Elements that compare equal keep
their original relative order because each element is inserted after all
earlier elements that do not compare strictly greater. -/
def jsSort (le : α → α → Bool) (l : List α) : List α :=
  jsSortLoop le [] l

/-- The per-room drawing log of `createDrawingState` in `server/state.js`:
the `ops` array and the `redoStack` array (top of the stack at the head). -/
structure DrawingState where
  ops : List StoredOp
  redoStack : List String
deriving DecidableEq, Repr

/-- The initial state of a freshly created room: both arrays empty. -/
def initState : DrawingState := ⟨[], []⟩

/-- The record `appendOp` builds by spreading the input and then overriding:
`isDeleted: false`, `serverTimestamp: Date.now()`,
`timestamp: op.timestamp || Date.now()`. -/
def mkStored (now : Nat) (op : OpIn) : StoredOp :=
  { id := op.id
    userId := op.userId
    points := op.points
    isDeleted := false
    serverTimestamp := now
    timestamp := jsOr op.timestamp now }

/-- The log's `appendOp(op)`: push the completed record, clear the redo
stack, then re-sort the whole array with the three-tier comparator.
`now` stands for `Date.now()` at the moment of the call. -/
def appendOp (now : Nat) (s : DrawingState) (op : OpIn) : DrawingState :=
  { ops := jsSort opLE (s.ops ++ [mkStored now op])
    redoStack := [] }

/-- Replace the point list of the first operation whose id matches
(`ops.find(o => o.id === id)` followed by `s.points = points`). -/
def patchList : List StoredOp → String → List Point → List StoredOp
  | [], _, _ => []
  | o :: rest, i, pts =>
    if o.id = i then { o with points := pts } :: rest
    else o :: patchList rest i pts

/-- The log's `patchPoints(id, points)`: overwrite the found operation's
point array with the incoming one; no-op when the id is unknown. -/
def patchPoints (s : DrawingState) (i : String) (pts : List Point) : DrawingState :=
  { s with ops := patchList s.ops i pts }

/-- Helper for `globalUndo`: on a list read back-to-front, tombstone the
first non-deleted record met and report its id. -/
def markFirstActive : List StoredOp → Option (List StoredOp × String)
  | [] => none
  | o :: rest =>
    if o.isDeleted then
      match markFirstActive rest with
      | none => none
      | some (l, i) => some (o :: l, i)
    else
      some ({ o with isDeleted := true } :: rest, o.id)

/-- The log's `globalUndo()`: scan `ops` from the end, tombstone the first
non-deleted operation found and push its id onto the redo stack; no-op when
every operation is already tombstoned. -/
def globalUndo (s : DrawingState) : DrawingState :=
  match markFirstActive s.ops.reverse with
  | none => s
  | some (l, i) => { ops := l.reverse, redoStack := i :: s.redoStack }

/-- Un-tombstone the first operation whose id matches
(`ops.find(o => o.id === id)` followed by `s.isDeleted = false`). -/
def unmarkFirst : List StoredOp → String → List StoredOp
  | [], _ => []
  | o :: rest, i =>
    if o.id = i then { o with isDeleted := false } :: rest
    else o :: unmarkFirst rest i

/-- The log's `globalRedo()`: pop the redo stack; a falsy popped value (no
entry, or the empty string) aborts after the pop; otherwise un-tombstone the
first operation with the popped id. -/
def globalRedo (s : DrawingState) : DrawingState :=
  match s.redoStack with
  | [] => s
  | i :: rest =>
    if i = "" then { s with redoStack := rest }
    else { ops := unmarkFirst s.ops i, redoStack := rest }

/-- The log's `clear()`: discard every operation and the redo stack. -/
def clearState (_s : DrawingState) : DrawingState := ⟨[], []⟩

/-- The room-load path of `POST /api/rooms/:room/load` in `server/index.js`:
`r.state.clear()` followed by `r.state.appendOp(op)` for every saved record;
each append happens at its own `Date.now()` value, carried in the pair. -/
def loadOps (recs : List (Nat × OpIn)) (s : DrawingState) : DrawingState :=
  recs.foldl (fun st p => appendOp p.1 st p.2) (clearState s)

/-- The states a room log can reach from creation through the message
handlers of `server/index.js` (append via stroke:start or shape:add, patch
via stroke:update, undo, redo, clear; the load path is clear followed by
appends and is therefore also covered). -/
inductive Reachable : DrawingState → Prop
  | init : Reachable initState
  | append {s} (now : Nat) (op : OpIn) : Reachable s → Reachable (appendOp now s op)
  | patch {s} (i : String) (pts : List Point) : Reachable s → Reachable (patchPoints s i pts)
  | undo {s} : Reachable s → Reachable (globalUndo s)
  | redo {s} : Reachable s → Reachable (globalRedo s)
  | clear {s} : Reachable s → Reachable (clearState s)

/-- Non-strict lexicographic order on sort keys, the propositional shape of
`tripleCmp _ _ ≤ 0`. -/
def pkLE : Nat × Nat × String → Nat × Nat × String → Prop
  | (t1, s1, u1), (t2, s2, u2) =>
    t1 < t2 ∨ (t1 = t2 ∧ (s1 < s2 ∨ (s1 = s2 ∧ u1 ≤ u2)))

/-- Strict lexicographic order on sort keys. -/
def pkLT : Nat × Nat × String → Nat × Nat × String → Prop
  | (t1, s1, u1), (t2, s2, u2) =>
    t1 < t2 ∨ (t1 = t2 ∧ (s1 < s2 ∨ (s1 = s2 ∧ u1 < u2)))

/-- Non-strict key order on stored operations. -/
def keyLE (a b : StoredOp) : Prop := pkLE (opKey a) (opKey b)

/-- Strict key order on stored operations. -/
def keyLT (a b : StoredOp) : Prop := pkLT (opKey a) (opKey b)

theorem userCmp_le_iff (a b : String) : userCmp a b ≤ 0 ↔ a ≤ b := by
  unfold userCmp
  rcases h : compare a b with _ | _ | _
  · simp only [h]
    simp [le_of_lt (compare_lt_iff_lt.mp h)]
  · simp only [h]
    simp [le_of_eq (compare_eq_iff_eq.mp h)]
  · simp only [h]
    constructor
    · intro hc
      norm_num at hc
    · intro hc
      exact absurd h (compare_le_iff_le.mpr hc)

theorem tripleCmp_le_iff (k1 k2 : Nat × Nat × String) :
    tripleCmp k1 k2 ≤ 0 ↔ pkLE k1 k2 := by
  obtain ⟨t1, s1, u1⟩ := k1
  obtain ⟨t2, s2, u2⟩ := k2
  show (if t1 ≠ t2 then (t1 : Int) - (t2 : Int)
        else if s1 ≠ s2 then (s1 : Int) - (s2 : Int)
        else userCmp u1 u2) ≤ 0
    ↔ (t1 < t2 ∨ (t1 = t2 ∧ (s1 < s2 ∨ (s1 = s2 ∧ u1 ≤ u2))))
  by_cases ht : t1 = t2
  · subst ht
    rw [if_neg (by omega : ¬ t1 ≠ t1)]
    by_cases hs : s1 = s2
    · subst hs
      rw [if_neg (by omega : ¬ s1 ≠ s1), userCmp_le_iff]
      constructor
      · intro h
        exact Or.inr ⟨rfl, Or.inr ⟨rfl, h⟩⟩
      · rintro (h | ⟨_, h | ⟨_, h⟩⟩)
        · omega
        · omega
        · exact h
    · rw [if_pos (by omega : s1 ≠ s2)]
      constructor
      · intro h
        exact Or.inr ⟨rfl, Or.inl (by omega)⟩
      · rintro (h | ⟨_, h | ⟨he, _⟩⟩)
        · omega
        · omega
        · exact absurd he hs
  · rw [if_pos (by omega : t1 ≠ t2)]
    constructor
    · intro h
      exact Or.inl (by omega)
    · rintro (h | ⟨he, _⟩)
      · omega
      · exact absurd he ht

theorem pkLE_total (k1 k2 : Nat × Nat × String) : pkLE k1 k2 ∨ pkLE k2 k1 := by
  obtain ⟨t1, s1, u1⟩ := k1
  obtain ⟨t2, s2, u2⟩ := k2
  show (t1 < t2 ∨ (t1 = t2 ∧ (s1 < s2 ∨ (s1 = s2 ∧ u1 ≤ u2))))
    ∨ (t2 < t1 ∨ (t2 = t1 ∧ (s2 < s1 ∨ (s2 = s1 ∧ u2 ≤ u1))))
  rcases Nat.lt_trichotomy t1 t2 with h | h | h
  · exact Or.inl (Or.inl h)
  · subst h
    rcases Nat.lt_trichotomy s1 s2 with h | h | h
    · exact Or.inl (Or.inr ⟨rfl, Or.inl h⟩)
    · subst h
      rcases le_total u1 u2 with h | h
      · exact Or.inl (Or.inr ⟨rfl, Or.inr ⟨rfl, h⟩⟩)
      · exact Or.inr (Or.inr ⟨rfl, Or.inr ⟨rfl, h⟩⟩)
    · exact Or.inr (Or.inr ⟨rfl, Or.inl h⟩)
  · exact Or.inr (Or.inl h)

theorem pkLE_trans {k1 k2 k3 : Nat × Nat × String}
    (h1 : pkLE k1 k2) (h2 : pkLE k2 k3) : pkLE k1 k3 := by
  obtain ⟨t1, s1, u1⟩ := k1
  obtain ⟨t2, s2, u2⟩ := k2
  obtain ⟨t3, s3, u3⟩ := k3
  revert h1 h2
  show (t1 < t2 ∨ (t1 = t2 ∧ (s1 < s2 ∨ (s1 = s2 ∧ u1 ≤ u2))))
    → (t2 < t3 ∨ (t2 = t3 ∧ (s2 < s3 ∨ (s2 = s3 ∧ u2 ≤ u3))))
    → (t1 < t3 ∨ (t1 = t3 ∧ (s1 < s3 ∨ (s1 = s3 ∧ u1 ≤ u3))))
  rintro (h1 | ⟨ht1, h1⟩) (h2 | ⟨ht2, h2⟩)
  · exact Or.inl (by omega)
  · exact Or.inl (by omega)
  · exact Or.inl (by omega)
  · subst ht1
    subst ht2
    rcases h1 with h1 | ⟨hs1, hu1⟩
    · rcases h2 with h2 | ⟨hs2, _⟩
      · exact Or.inr ⟨rfl, Or.inl (by omega)⟩
      · exact Or.inr ⟨rfl, Or.inl (by omega)⟩
    · subst hs1
      rcases h2 with h2 | ⟨hs2, hu2⟩
      · exact Or.inr ⟨rfl, Or.inl h2⟩
      · exact Or.inr ⟨rfl, Or.inr ⟨hs2, le_trans hu1 hu2⟩⟩

theorem pkLT_asymm {k1 k2 : Nat × Nat × String}
    (h1 : pkLT k1 k2) (h2 : pkLT k2 k1) : False := by
  obtain ⟨t1, s1, u1⟩ := k1
  obtain ⟨t2, s2, u2⟩ := k2
  revert h1 h2
  show (t1 < t2 ∨ (t1 = t2 ∧ (s1 < s2 ∨ (s1 = s2 ∧ u1 < u2))))
    → (t2 < t1 ∨ (t2 = t1 ∧ (s2 < s1 ∨ (s2 = s1 ∧ u2 < u1))))
    → False
  rintro (h1 | ⟨ht1, h1 | ⟨hs1, hu1⟩⟩) (h2 | ⟨ht2, h2 | ⟨hs2, hu2⟩⟩) <;>
    first
      | omega
      | exact absurd hu2 (not_lt_of_lt hu1)

theorem pkLT_of_pkLE_of_ne {k1 k2 : Nat × Nat × String}
    (h : pkLE k1 k2) (hne : k1 ≠ k2) : pkLT k1 k2 := by
  obtain ⟨t1, s1, u1⟩ := k1
  obtain ⟨t2, s2, u2⟩ := k2
  revert h
  show (t1 < t2 ∨ (t1 = t2 ∧ (s1 < s2 ∨ (s1 = s2 ∧ u1 ≤ u2))))
    → (t1 < t2 ∨ (t1 = t2 ∧ (s1 < s2 ∨ (s1 = s2 ∧ u1 < u2))))
  rintro (h | ⟨ht, h | ⟨hs, hu⟩⟩)
  · exact Or.inl h
  · exact Or.inr ⟨ht, Or.inl h⟩
  · subst ht
    subst hs
    refine Or.inr ⟨rfl, Or.inr ⟨rfl, lt_of_le_of_ne hu ?_⟩⟩
    intro he
    exact hne (by rw [he])

theorem opLE_iff (a b : StoredOp) : opLE a b = true ↔ keyLE a b := by
  unfold opLE cmpOps keyLE
  rw [decide_eq_true_iff]
  exact tripleCmp_le_iff (opKey a) (opKey b)

theorem opLE_total (a b : StoredOp) : opLE a b = true ∨ opLE b a = true := by
  rw [opLE_iff, opLE_iff]
  exact pkLE_total (opKey a) (opKey b)

theorem opLE_trans {a b c : StoredOp}
    (h1 : opLE a b = true) (h2 : opLE b c = true) : opLE a c = true := by
  rw [opLE_iff] at h1 h2 ⊢
  exact pkLE_trans h1 h2

theorem insertSorted_perm (le : α → α → Bool) (x : α) (l : List α) :
    (insertSorted le x l).Perm (x :: l) := by
  induction l with
  | nil => exact List.Perm.refl _
  | cons y ys ih =>
    unfold insertSorted
    by_cases h : le y x = true
    · rw [if_pos h]
      exact (ih.cons y).trans (List.Perm.swap x y ys)
    · rw [if_neg h]

theorem jsSortLoop_perm (le : α → α → Bool) (acc l : List α) :
    (jsSortLoop le acc l).Perm (acc ++ l) := by
  induction l generalizing acc with
  | nil => simp [jsSortLoop]
  | cons x xs ih =>
    unfold jsSortLoop
    refine (ih (insertSorted le x acc)).trans ?_
    refine (List.Perm.append_right xs (insertSorted_perm le x acc)).trans ?_
    exact List.perm_middle.symm

theorem jsSort_perm (le : α → α → Bool) (l : List α) : (jsSort le l).Perm l := by
  unfold jsSort
  simpa using jsSortLoop_perm le [] l

theorem pairwise_insertSorted (le : α → α → Bool)
    (htot : ∀ a b, le a b = true ∨ le b a = true)
    (htrans : ∀ a b c, le a b = true → le b c = true → le a c = true)
    (x : α) (l : List α) (h : l.Pairwise (fun a b => le a b = true)) :
    (insertSorted le x l).Pairwise (fun a b => le a b = true) := by
  induction l with
  | nil => simp [insertSorted]
  | cons y ys ih =>
    rw [List.pairwise_cons] at h
    obtain ⟨hy, hys⟩ := h
    unfold insertSorted
    by_cases hle : le y x = true
    · rw [if_pos hle]
      rw [List.pairwise_cons]
      refine ⟨?_, ih hys⟩
      intro z hz
      have hz' : z ∈ x :: ys := (insertSorted_perm le x ys).mem_iff.mp hz
      rcases List.mem_cons.mp hz' with h | h
      · subst h
        exact hle
      · exact hy z h
    · rw [if_neg hle]
      have hxy : le x y = true := by
        rcases htot x y with h | h
        · exact h
        · exact absurd h hle
      rw [List.pairwise_cons]
      constructor
      · intro z hz
        rcases List.mem_cons.mp hz with h | h
        · subst h
          exact hxy
        · exact htrans x y z hxy (hy z h)
      · rw [List.pairwise_cons]
        exact ⟨hy, hys⟩

theorem pairwise_jsSortLoop (le : α → α → Bool)
    (htot : ∀ a b, le a b = true ∨ le b a = true)
    (htrans : ∀ a b c, le a b = true → le b c = true → le a c = true)
    (acc l : List α) (hacc : acc.Pairwise (fun a b => le a b = true)) :
    (jsSortLoop le acc l).Pairwise (fun a b => le a b = true) := by
  induction l generalizing acc with
  | nil => exact hacc
  | cons x xs ih =>
    unfold jsSortLoop
    exact ih (insertSorted le x acc) (pairwise_insertSorted le htot htrans x acc hacc)

theorem jsSort_pairwise (le : α → α → Bool)
    (htot : ∀ a b, le a b = true ∨ le b a = true)
    (htrans : ∀ a b c, le a b = true → le b c = true → le a c = true)
    (l : List α) : (jsSort le l).Pairwise (fun a b => le a b = true) :=
  pairwise_jsSortLoop le htot htrans [] l (List.Pairwise.nil)

theorem pairwise_keyLE_of_map_eq {l l' : List StoredOp}
    (hmap : l'.map opKey = l.map opKey) (hp : l.Pairwise keyLE) :
    l'.Pairwise keyLE := by
  have h1 : (l.map opKey).Pairwise pkLE := List.pairwise_map.mpr hp
  rw [← hmap] at h1
  exact (@List.pairwise_map StoredOp (Nat × Nat × String) opKey pkLE l').mp h1

theorem patchList_map_key (l : List StoredOp) (i : String) (pts : List Point) :
    (patchList l i pts).map opKey = l.map opKey := by
  induction l with
  | nil => rfl
  | cons o rest ih =>
    unfold patchList
    by_cases h : o.id = i
    · rw [if_pos h]
      rfl
    · rw [if_neg h]
      simp [ih]

theorem unmarkFirst_map_key (l : List StoredOp) (i : String) :
    (unmarkFirst l i).map opKey = l.map opKey := by
  induction l with
  | nil => rfl
  | cons o rest ih =>
    unfold unmarkFirst
    by_cases h : o.id = i
    · rw [if_pos h]
      rfl
    · rw [if_neg h]
      simp [ih]

theorem markFirstActive_map_key (l r : List StoredOp) (i : String)
    (h : markFirstActive l = some (r, i)) : r.map opKey = l.map opKey := by
  induction l generalizing r with
  | nil => simp [markFirstActive] at h
  | cons o rest ih =>
    unfold markFirstActive at h
    by_cases hd : o.isDeleted
    · rw [if_pos hd] at h
      cases hr : markFirstActive rest with
      | none => rw [hr] at h; exact absurd h (by simp)
      | some p =>
        obtain ⟨l2, i2⟩ := p
        rw [hr] at h
        simp only [Option.some.injEq, Prod.mk.injEq] at h
        obtain ⟨hrep, hi⟩ := h
        subst hi
        rw [← hrep]
        simp [ih l2 hr]
    · rw [if_neg hd] at h
      simp only [Option.some.injEq, Prod.mk.injEq] at h
      obtain ⟨hrep, hi⟩ := h
      rw [← hrep]
      rfl

theorem globalUndo_ops_map_key (s : DrawingState) :
    (globalUndo s).ops.map opKey = s.ops.map opKey := by
  unfold globalUndo
  cases hm : markFirstActive s.ops.reverse with
  | none => rfl
  | some p =>
    obtain ⟨l, i⟩ := p
    show l.reverse.map opKey = s.ops.map opKey
    calc l.reverse.map opKey = (l.map opKey).reverse := by rw [List.map_reverse]
    _ = ((s.ops.reverse).map opKey).reverse := by rw [markFirstActive_map_key _ l i hm]
    _ = ((s.ops.map opKey).reverse).reverse := by rw [List.map_reverse]
    _ = s.ops.map opKey := by rw [List.reverse_reverse]

theorem globalRedo_ops_map_key (s : DrawingState) :
    (globalRedo s).ops.map opKey = s.ops.map opKey := by
  unfold globalRedo
  cases hr : s.redoStack with
  | nil => rfl
  | cons i rest =>
    show ((if i = "" then ({ ops := s.ops, redoStack := rest } : DrawingState)
           else { ops := unmarkFirst s.ops i, redoStack := rest }).ops).map opKey
        = s.ops.map opKey
    by_cases h : i = ""
    · rw [if_pos h]
    · rw [if_neg h]
      exact unmarkFirst_map_key s.ops i

theorem reach_sorted {s : DrawingState} (h : Reachable s) : s.ops.Pairwise keyLE := by
  induction h with
  | init => exact List.Pairwise.nil
  | append now op _ _ =>
    exact List.Pairwise.imp (fun hab => (opLE_iff _ _).mp hab)
      (jsSort_pairwise opLE opLE_total (fun a b c h1 h2 => opLE_trans h1 h2) _)
  | patch i pts _ ih =>
    exact pairwise_keyLE_of_map_eq (patchList_map_key _ i pts) ih
  | undo _ ih =>
    exact pairwise_keyLE_of_map_eq (globalUndo_ops_map_key _) ih
  | redo _ ih =>
    exact pairwise_keyLE_of_map_eq (globalRedo_ops_map_key _) ih
  | clear _ _ =>
    exact List.Pairwise.nil

theorem length_eq_of_map_key_eq {l l' : List StoredOp}
    (h : l'.map opKey = l.map opKey) : l'.length = l.length := by
  have h2 := congrArg List.length h
  simpa using h2

theorem reach_empty_stack {s : DrawingState} (h : Reachable s) :
    s.ops = [] → s.redoStack = [] := by
  induction h with
  | init => intro _; rfl
  | append now op _ _ => intro _; rfl
  | patch i pts _ ih =>
    rename_i s' _
    intro he
    have hlen := length_eq_of_map_key_eq (patchList_map_key s'.ops i pts)
    have he2 : patchList s'.ops i pts = [] := he
    rw [he2] at hlen
    exact ih (List.length_eq_zero.mp (by simpa using hlen.symm))
  | undo _ ih =>
    rename_i s' _
    intro he
    revert he
    unfold globalUndo
    cases hm : markFirstActive s'.ops.reverse with
    | none => exact ih
    | some p =>
      obtain ⟨l, i⟩ := p
      intro he
      have he2 : l.reverse = [] := he
      have hl : l = [] := List.reverse_eq_nil_iff.mp he2
      subst hl
      have hk := markFirstActive_map_key _ [] i hm
      have hk2 : List.map opKey s'.ops.reverse = [] := hk.symm
      have hrev : s'.ops.reverse = [] := List.map_eq_nil_iff.mp hk2
      rw [hrev] at hm
      exact absurd hm (by simp [markFirstActive])
  | redo _ ih =>
    rename_i s' _
    intro he
    revert he
    unfold globalRedo
    cases hr : s'.redoStack with
    | nil => exact ih
    | cons i rest =>
      show ((if i = "" then ({ ops := s'.ops, redoStack := rest } : DrawingState)
             else { ops := unmarkFirst s'.ops i, redoStack := rest }).ops = []) → _
      by_cases hi : i = ""
      · rw [if_pos hi]
        intro he
        have hcontra := ih he
        rw [hr] at hcontra
        exact absurd hcontra (by simp)
      · rw [if_neg hi]
        intro he
        have hlen := length_eq_of_map_key_eq (unmarkFirst_map_key s'.ops i)
        have he2 : unmarkFirst s'.ops i = [] := he
        rw [he2] at hlen
        have hcontra := ih (List.length_eq_zero.mp (by simpa using hlen.symm))
        rw [hr] at hcontra
        exact absurd hcontra (by simp)
  | clear _ _ =>
    intro _
    rfl

theorem markFirstActive_none_iff (l : List StoredOp) :
    markFirstActive l = none ↔ ∀ o ∈ l, o.isDeleted = true := by
  induction l with
  | nil => simp [markFirstActive]
  | cons o rest ih =>
    unfold markFirstActive
    by_cases hd : o.isDeleted = true
    · rw [if_pos hd]
      cases hr : markFirstActive rest with
      | none =>
        simp only [true_iff]
        intro x hx
        rcases List.mem_cons.mp hx with h | h
        · subst h
          exact hd
        · exact (ih.mp hr) x h
      | some p =>
        obtain ⟨l2, i2⟩ := p
        simp only [reduceCtorEq, false_iff, not_forall]
        have hne : ¬ (∀ o ∈ rest, o.isDeleted = true) := by
          intro hall
          rw [ih.mpr hall] at hr
          exact absurd hr (by simp)
        push_neg at hne
        obtain ⟨x, hx, hxd⟩ := hne
        exact ⟨x, List.mem_cons_of_mem o hx, hxd⟩
    · rw [if_neg hd]
      simp only [reduceCtorEq, false_iff, not_forall]
      exact ⟨o, List.mem_cons_self o rest, hd⟩

theorem markFirstActive_spec (l r : List StoredOp) (i : String)
    (h : markFirstActive l = some (r, i)) :
    ∃ p o q, l = p ++ o :: q ∧ (∀ x ∈ p, x.isDeleted = true) ∧
      o.isDeleted = false ∧ i = o.id ∧
      r = p ++ ({ o with isDeleted := true } :: q) := by
  induction l generalizing r with
  | nil => simp [markFirstActive] at h
  | cons o rest ih =>
    unfold markFirstActive at h
    by_cases hd : o.isDeleted = true
    · rw [if_pos hd] at h
      cases hr : markFirstActive rest with
      | none =>
        rw [hr] at h
        exact absurd h (by simp)
      | some pr =>
        obtain ⟨l2, i2⟩ := pr
        rw [hr] at h
        simp only [Option.some.injEq, Prod.mk.injEq] at h
        obtain ⟨hrep, hi⟩ := h
        subst hi
        obtain ⟨p, ob, q, hl, hp, hob, hi2, hr2⟩ := ih l2 hr
        refine ⟨o :: p, ob, q, by rw [hl]; rfl, ?_, hob, hi2, ?_⟩
        · intro x hx
          rcases List.mem_cons.mp hx with h | h
          · subst h
            exact hd
          · exact hp x h
        · rw [← hrep, hr2]
          rfl
    · rw [if_neg hd] at h
      simp only [Option.some.injEq, Prod.mk.injEq] at h
      obtain ⟨hrep, hi⟩ := h
      refine ⟨[], o, rest, rfl, by simp, Bool.not_eq_true _ |>.mp hd, hi.symm, ?_⟩
      rw [← hrep]
      rfl

theorem reverse_append_cons (p : List α) (x : α) (q : List α) :
    (p ++ x :: q).reverse = q.reverse ++ x :: p.reverse := by
  simp

theorem globalUndo_noop (s : DrawingState)
    (h : ∀ o ∈ s.ops, o.isDeleted = true) : globalUndo s = s := by
  unfold globalUndo
  have hn : markFirstActive s.ops.reverse = none := by
    rw [markFirstActive_none_iff]
    intro o ho
    exact h o (List.mem_reverse.mp ho)
  rw [hn]

theorem globalUndo_spec (s : DrawingState)
    (h : ∃ o ∈ s.ops, o.isDeleted = false) :
    ∃ l₁ o l₂, s.ops = l₁ ++ o :: l₂ ∧ o.isDeleted = false ∧
      (∀ x ∈ l₂, x.isDeleted = true) ∧
      (globalUndo s).ops = l₁ ++ ({ o with isDeleted := true } :: l₂) ∧
      (globalUndo s).redoStack = o.id :: s.redoStack := by
  obtain ⟨oa, hoa, hda⟩ := h
  cases hm : markFirstActive s.ops.reverse with
  | none =>
    have := (markFirstActive_none_iff _).mp hm oa (List.mem_reverse.mpr hoa)
    rw [this] at hda
    exact absurd hda (by simp)
  | some pr =>
    obtain ⟨r, i⟩ := pr
    obtain ⟨p, o, q, hl, hp, ho, hi, hr⟩ := markFirstActive_spec _ r i hm
    have hops : s.ops = q.reverse ++ o :: p.reverse := by
      have := congrArg List.reverse hl
      rw [List.reverse_reverse, reverse_append_cons] at this
      exact this
    refine ⟨q.reverse, o, p.reverse, hops, ho, ?_, ?_, ?_⟩
    · intro x hx
      exact hp x (List.mem_reverse.mp hx)
    · show (globalUndo s).ops = _
      unfold globalUndo
      rw [hm]
      show r.reverse = _
      rw [hr, reverse_append_cons]
    · show (globalUndo s).redoStack = _
      unfold globalUndo
      rw [hm]
      show i :: s.redoStack = _
      rw [hi]

theorem unmarkFirst_append (l₁ : List StoredOp) (o : StoredOp) (l₂ : List StoredOp)
    (i : String) (h1 : ∀ x ∈ l₁, x.id ≠ i) (h2 : o.id = i) :
    unmarkFirst (l₁ ++ o :: l₂) i = l₁ ++ ({ o with isDeleted := false } :: l₂) := by
  induction l₁ with
  | nil =>
    show unmarkFirst (o :: l₂) i = _
    unfold unmarkFirst
    rw [if_pos h2]
    rfl
  | cons x xs ih =>
    show unmarkFirst (x :: (xs ++ o :: l₂)) i = _
    unfold unmarkFirst
    rw [if_neg (h1 x (List.mem_cons_self x xs))]
    rw [ih (fun y hy => h1 y (List.mem_cons_of_mem x hy))]
    rfl

theorem patchList_append (l₁ : List StoredOp) (o : StoredOp) (l₂ : List StoredOp)
    (i : String) (pts : List Point) (h1 : ∀ x ∈ l₁, x.id ≠ i) (h2 : o.id = i) :
    patchList (l₁ ++ o :: l₂) i pts = l₁ ++ ({ o with points := pts } :: l₂) := by
  induction l₁ with
  | nil =>
    show patchList (o :: l₂) i pts = _
    unfold patchList
    rw [if_pos h2]
    rfl
  | cons x xs ih =>
    show patchList (x :: (xs ++ o :: l₂)) i pts = _
    unfold patchList
    rw [if_neg (h1 x (List.mem_cons_self x xs))]
    rw [ih (fun y hy => h1 y (List.mem_cons_of_mem x hy))]
    rfl

theorem patchList_no_match (l : List StoredOp) (i : String) (pts : List Point)
    (h : ∀ x ∈ l, x.id ≠ i) : patchList l i pts = l := by
  induction l with
  | nil => rfl
  | cons x xs ih =>
    unfold patchList
    rw [if_neg (h x (List.mem_cons_self x xs))]
    rw [ih (fun y hy => h y (List.mem_cons_of_mem x hy))]

/-- A stroke operation as held by the client canvas controller
(`StrokeOp` in `client/modules/canvas.ts`, restricted to the fields the
reconciliation handlers read or write). -/
structure CStroke where
  id : String
  userId : String
  mode : String
  color : String
  width : Nat
  points : List Point
  timestamp : Option Nat
  serverTimestamp : Option Nat
  isDeleted : Bool
deriving DecidableEq, Repr

/-- Client sorter primary key: `a.timestamp || 0`. -/
def cTime (s : CStroke) : Nat := jsOr s.timestamp 0

/-- Client sorter secondary key: `a.serverTimestamp || aTime`. -/
def cServerTime (s : CStroke) : Nat := jsOr s.serverTimestamp (cTime s)

/-- Sort key used by every client-side sorter in `canvas.ts`. -/
def cKey (s : CStroke) : Nat × Nat × String :=
  (cTime s, cServerTime s, s.userId)

/-- The client comparator of `canvas.ts` (`redrawAll`, `onInitialState`,
`onStrokeAppended`, `onWholeStateReplaced`, `endStroke` all inline the same
body): timestamp with `|| 0` fallback, then server timestamp with `|| aTime`
fallback, then `localeCompare` on user ids. -/
def cCmp (a b : CStroke) : Int :=
  tripleCmp (cKey a) (cKey b)

/-- Boolean order run through the stable sort on the client. -/
def cLE (a b : CStroke) : Bool :=
  decide (cCmp a b ≤ 0)

/-- The client canvas controller state touched by the reconciliation
handlers of `canvas.ts`: the `strokes` array, the `locallyCommittedStrokes`
set, the `committedStrokeCoordinates` map, the active stroke and the
pointer-down flag, plus this client's own user id. -/
structure ClientState where
  myUserId : String
  strokes : List CStroke
  committedIds : List String
  committedCoords : List (String × List Point)
  active : Option CStroke
  pointerDown : Bool

/-- Lookup in the `committedStrokeCoordinates` map. -/
def lookupCoords : List (String × List Point) → String → Option (List Point)
  | [], _ => none
  | (k, v) :: rest, i => if k = i then some v else lookupCoords rest i

/-- The JavaScript test `activeStroke && activeStroke.id === id`. -/
def activeMatch : Option CStroke → String → Prop
  | some x, i => x.id = i
  | none, _ => False

instance (a : Option CStroke) (i : String) : Decidable (activeMatch a i) :=
  match a with
  | some x => inferInstanceAs (Decidable (x.id = i))
  | none => inferInstanceAs (Decidable False)

/-- JavaScript truthiness of an optional number: present and non-zero. -/
def jsTruthy (t : Option Nat) : Prop := jsOr t 0 ≠ 0

instance (t : Option Nat) : Decidable (jsTruthy t) :=
  inferInstanceAs (Decidable (jsOr t 0 ≠ 0))

/-- The metadata-only update of `onStrokeAppended` for an echo of our own
stroke: copy color, width and mode, and copy each timestamp only when the
incoming value is truthy; never touch the points. -/
def metaPatch : List CStroke → CStroke → List CStroke
  | [], _ => []
  | s :: rest, st =>
    if s.id = st.id then
      { s with
        color := st.color
        width := st.width
        mode := st.mode
        timestamp := if jsTruthy st.timestamp then st.timestamp else s.timestamp
        serverTimestamp :=
          if jsTruthy st.serverTimestamp then st.serverTimestamp
          else s.serverTimestamp } :: rest
    else s :: metaPatch rest st

/-- Replace the point array of the first stroke whose id matches
(`strokes.find(x => x.id === id)` then `s.points = points`). -/
def patchFirstC : List CStroke → String → List Point → List CStroke
  | [], _, _ => []
  | s :: rest, i, pts =>
    if s.id = i then { s with points := pts } :: rest
    else s :: patchFirstC rest i pts

/-- The handler `network.onStrokeAppended` in `canvas.ts`: ignore echoes of
committed or actively drawn strokes, merge metadata for our own existing
strokes, and insert-and-sort unknown strokes. -/
def onAdded (c : ClientState) (st : CStroke) : ClientState :=
  if st.id ∈ c.committedIds then c
  else
    if activeMatch c.active st.id ∧ c.pointerDown then c
    else
      match c.strokes.find? (fun s => s.id == st.id) with
      | some ex =>
        if ex.userId = c.myUserId then { c with strokes := metaPatch c.strokes st }
        else c
      | none =>
        if activeMatch c.active st.id ∧ ¬ c.pointerDown then c
        else { c with strokes := jsSort cLE (c.strokes ++ [st]) }

/-- The `points.length > activeStroke.points.length` guarded update of the
active stroke in `onStrokePatched`. -/
def updActive : Option CStroke → List Point → Option CStroke
  | some a, pts => if pts.length > a.points.length then some { a with points := pts } else some a
  | none, _ => none

/-- The handler `network.onStrokePatched` in `canvas.ts`: ignore patches for
committed strokes, for strokes being actively drawn, and for our own strokes;
apply the patch in place for other users' strokes; drop patches for unknown
ids. -/
def onPatched (c : ClientState) (i : String) (pts : List Point) : ClientState :=
  if i ∈ c.committedIds then c
  else if activeMatch c.active i ∧ c.pointerDown then c
  else
    match c.strokes.find? (fun x => x.id == i) with
    | some x =>
      if x.userId = c.myUserId then c
      else if activeMatch c.active i ∧ ¬ c.pointerDown then
        { c with active := updActive c.active pts }
      else { c with strokes := patchFirstC c.strokes i pts }
    | none =>
      if activeMatch c.active i ∧ ¬ c.pointerDown then
        { c with active := updActive c.active pts }
      else c

/-- The `s.userId === myUserId && s.id !== activeStroke?.id` filter condition
of `onWholeStateReplaced` (when there is no active stroke, `activeStroke?.id`
is `undefined` and the id test is vacuously true). -/
def ownNonActive (c : ClientState) (s : CStroke) : Prop :=
  s.userId = c.myUserId ∧ (∀ a, c.active = some a → s.id ≠ a.id)

instance (c : ClientState) (s : CStroke) : Decidable (ownNonActive c s) := by
  unfold ownNonActive
  cases h : c.active with
  | none =>
    refine decidable_of_iff (s.userId = c.myUserId) ⟨fun hu => ⟨hu, ?_⟩, fun hp => hp.1⟩
    intro a ha
    exact absurd ha (by simp)
  | some x =>
    refine decidable_of_iff (s.userId = c.myUserId ∧ s.id ≠ x.id)
      ⟨fun hp => ⟨hp.1, fun a ha => ?_⟩, fun hp => ⟨hp.1, hp.2 x rfl⟩⟩
    cases ha
    exact hp.2

/-- The coordinate-restoring pass of `onWholeStateReplaced`: for every kept
stroke that is locally committed and has stored coordinates, overwrite its
points with the pinned coordinates. -/
def restorePins (c : ClientState) (l : List CStroke) : List CStroke :=
  l.map fun s =>
    if s.id ∈ c.committedIds then
      match lookupCoords c.committedCoords s.id with
      | some pts => { s with points := pts }
      | none => s
    else s

/-- The `ourCommittedStrokes` list of `onWholeStateReplaced`: every current
stroke that is locally committed or our own non-active stroke, with pinned
coordinates restored for the committed ones. -/
def keptOwn (c : ClientState) : List CStroke :=
  restorePins c (c.strokes.filter
    (fun s => decide (s.id ∈ c.committedIds ∨ ownNonActive c s)))

/-- The snapshot strokes `onWholeStateReplaced` accepts verbatim:
`!locallyCommittedStrokes.has(s.id) && s.userId !== myUserId`. -/
def snapshotForeign (c : ClientState) (list : List CStroke) : List CStroke :=
  list.filter (fun s => decide (s.id ∉ c.committedIds ∧ s.userId ≠ c.myUserId))

/-- The handler `network.onWholeStateReplaced` in `canvas.ts` (fires on
`state:replace`, which the server broadcasts after undo, redo and clear; a
clear arrives as the empty snapshot): keep every locally committed or own
non-active stroke with pinned coordinates restored, take only foreign
non-committed strokes from the snapshot, keep the active stroke according to
the pointer state, and re-sort.  Shape operations are outside this model. -/
def onReplaced (c : ClientState) (list : List CStroke) : ClientState :=
  match c.active with
  | none => { c with strokes := jsSort cLE (snapshotForeign c list ++ keptOwn c) }
  | some a =>
    match list.find? (fun s => s.id == a.id) with
    | none => { c with strokes := jsSort cLE (snapshotForeign c list ++ keptOwn c ++ [a]) }
    | some ais =>
      if c.pointerDown ∨ a.id ∈ c.committedIds then
        { c with strokes := jsSort cLE (snapshotForeign c list ++ keptOwn c ++ [a]) }
      else
        { c with strokes := jsSort cLE (snapshotForeign c list ++ keptOwn c),
                 active := some ais }

/-- The wire events of claim C3: `stroke:append` (`op.added`),
`stroke:patch` (`op.patched`) and `state:replace` (`log.replaced`; the
snapshot after a `log.clear` is `replaced []`). -/
inductive CEvent where
  | added (st : CStroke)
  | patched (i : String) (pts : List Point)
  | replaced (list : List CStroke)

/-- Dispatch one incoming event to its handler. -/
def applyEvent (c : ClientState) : CEvent → ClientState
  | CEvent.added st => onAdded c st
  | CEvent.patched i pts => onPatched c i pts
  | CEvent.replaced list => onReplaced c list

/-- Apply a sequence of incoming events in order. -/
def applyEvents (c : ClientState) (evs : List CEvent) : ClientState :=
  evs.foldl applyEvent c

/-- The operation with id `i` is locally committed with pinned geometry
`pts`: the id is in the committed set, the coordinate map pins `pts`, a
stroke with that id is present and every stroke with that id carries exactly
the pinned points, and the active stroke (if any) is a different operation. -/
def CommittedPinned (c : ClientState) (i : String) (pts : List Point) : Prop :=
  i ∈ c.committedIds ∧
  lookupCoords c.committedCoords i = some pts ∧
  (∃ s ∈ c.strokes, s.id = i) ∧
  (∀ s ∈ c.strokes, s.id = i → s.points = pts) ∧
  (∀ a, c.active = some a → a.id ≠ i)

theorem metaPatch_map_pairs (l : List CStroke) (st : CStroke) :
    (metaPatch l st).map (fun s => (s.id, s.points)) = l.map (fun s => (s.id, s.points)) := by
  induction l with
  | nil => rfl
  | cons s rest ih =>
    unfold metaPatch
    by_cases h : s.id = st.id
    · rw [if_pos h]
      rfl
    · rw [if_neg h]
      simp [ih]

theorem patchFirstC_map_id (l : List CStroke) (i : String) (pts : List Point) :
    (patchFirstC l i pts).map (fun s => s.id) = l.map (fun s => s.id) := by
  induction l with
  | nil => rfl
  | cons s rest ih =>
    unfold patchFirstC
    by_cases h : s.id = i
    · rw [if_pos h]
      rfl
    · rw [if_neg h]
      simp [ih]

theorem patchFirstC_mem (l : List CStroke) (i : String) (pts : List Point) :
    ∀ s' ∈ patchFirstC l i pts, s'.id ≠ i → s' ∈ l := by
  induction l with
  | nil => intro s' h _; exact absurd h (by simp [patchFirstC])
  | cons s rest ih =>
    intro s' hmem hne
    unfold patchFirstC at hmem
    by_cases h : s.id = i
    · rw [if_pos h] at hmem
      rcases List.mem_cons.mp hmem with he | he
      · exact absurd (by rw [he]; exact h) hne
      · exact List.mem_cons_of_mem s he
    · rw [if_neg h] at hmem
      rcases List.mem_cons.mp hmem with he | he
      · rw [he]
        exact List.mem_cons_self s rest
      · exact List.mem_cons_of_mem s (ih s' he hne)

theorem exists_id_of_map_id_eq {l l' : List CStroke} {i : String}
    (hmap : l'.map (fun s => s.id) = l.map (fun s => s.id))
    (h : ∃ s ∈ l, s.id = i) : ∃ s' ∈ l', s'.id = i := by
  obtain ⟨s, hs, hid⟩ := h
  have hin : i ∈ l.map (fun s => s.id) := List.mem_map.mpr ⟨s, hs, hid⟩
  rw [← hmap] at hin
  obtain ⟨s', hs', hid'⟩ := List.mem_map.mp hin
  exact ⟨s', hs', hid'⟩

theorem pin_of_map_pairs_eq {l l' : List CStroke} {i : String} {pts : List Point}
    (hmap : l'.map (fun s => (s.id, s.points)) = l.map (fun s => (s.id, s.points)))
    (hp : ∀ s ∈ l, s.id = i → s.points = pts) :
    ∀ s' ∈ l', s'.id = i → s'.points = pts := by
  intro s' hs' hid
  have hin : (s'.id, s'.points) ∈ l'.map (fun s => (s.id, s.points)) :=
    List.mem_map.mpr ⟨s', hs', rfl⟩
  rw [hmap] at hin
  obtain ⟨s, hs, hpair⟩ := List.mem_map.mp hin
  have h1 : s.id = s'.id := congrArg Prod.fst hpair
  have h2 : s.points = s'.points := congrArg Prod.snd hpair
  rw [← h2]
  exact hp s hs (h1.trans hid)

theorem exists_id_of_map_pairs_eq {l l' : List CStroke} {i : String}
    (hmap : l'.map (fun s => (s.id, s.points)) = l.map (fun s => (s.id, s.points)))
    (h : ∃ s ∈ l, s.id = i) : ∃ s' ∈ l', s'.id = i := by
  refine exists_id_of_map_id_eq ?_ h
  have hcomp := congrArg (List.map Prod.fst) hmap
  rw [List.map_map, List.map_map] at hcomp
  exact hcomp

theorem onAdded_pinned {c : ClientState} {i : String} {pts : List Point}
    (h : CommittedPinned c i pts) (st : CStroke) :
    CommittedPinned (onAdded c st) i pts := by
  obtain ⟨h1, h2, h3, h4, h5⟩ := h
  unfold onAdded
  by_cases hc : st.id ∈ c.committedIds
  · rw [if_pos hc]
    exact ⟨h1, h2, h3, h4, h5⟩
  · rw [if_neg hc]
    have hne : st.id ≠ i := fun he => hc (he ▸ h1)
    by_cases ha : activeMatch c.active st.id ∧ c.pointerDown
    · rw [if_pos ha]
      exact ⟨h1, h2, h3, h4, h5⟩
    · rw [if_neg ha]
      cases hex : c.strokes.find? (fun s => s.id == st.id) with
      | some ex =>
        show CommittedPinned
          (if ex.userId = c.myUserId then { c with strokes := metaPatch c.strokes st } else c)
          i pts
        by_cases hu : ex.userId = c.myUserId
        · rw [if_pos hu]
          refine ⟨h1, h2, ?_, ?_, h5⟩
          · exact exists_id_of_map_pairs_eq (metaPatch_map_pairs c.strokes st) h3
          · exact pin_of_map_pairs_eq (metaPatch_map_pairs c.strokes st) h4
        · rw [if_neg hu]
          exact ⟨h1, h2, h3, h4, h5⟩
      | none =>
        show CommittedPinned
          (if activeMatch c.active st.id ∧ ¬ c.pointerDown then c
           else { c with strokes := jsSort cLE (c.strokes ++ [st]) })
          i pts
        by_cases ha2 : activeMatch c.active st.id ∧ ¬ c.pointerDown
        · rw [if_pos ha2]
          exact ⟨h1, h2, h3, h4, h5⟩
        · rw [if_neg ha2]
          refine ⟨h1, h2, ?_, ?_, h5⟩
          · obtain ⟨s0, hs0, hid⟩ := h3
            exact ⟨s0, (jsSort_perm cLE _).mem_iff.mpr (List.mem_append_left _ hs0), hid⟩
          · intro s' hs' hid
            have hmem : s' ∈ c.strokes ++ [st] := (jsSort_perm cLE _).mem_iff.mp hs'
            rcases List.mem_append.mp hmem with hm | hm
            · exact h4 s' hm hid
            · have : s' = st := by simpa using hm
              subst this
              exact absurd hid hne

theorem updActive_id {a : Option CStroke} {pts : List Point} {x : CStroke}
    (h : updActive a pts = some x) : ∃ y, a = some y ∧ x.id = y.id := by
  cases a with
  | none => exact absurd h (by simp [updActive])
  | some y =>
    have h2 : (if pts.length > y.points.length then
        some { y with points := pts } else some y) = some x := h
    by_cases hl : pts.length > y.points.length
    · rw [if_pos hl] at h2
      injection h2 with hx
      exact ⟨y, rfl, by rw [← hx]⟩
    · rw [if_neg hl] at h2
      injection h2 with hx
      exact ⟨y, rfl, by rw [← hx]⟩

theorem onPatched_pinned {c : ClientState} {i : String} {pts : List Point}
    (h : CommittedPinned c i pts) (i0 : String) (pts0 : List Point) :
    CommittedPinned (onPatched c i0 pts0) i pts := by
  obtain ⟨h1, h2, h3, h4, h5⟩ := h
  unfold onPatched
  by_cases hc : i0 ∈ c.committedIds
  · rw [if_pos hc]
    exact ⟨h1, h2, h3, h4, h5⟩
  · rw [if_neg hc]
    have hne : i0 ≠ i := fun he => hc (he ▸ h1)
    by_cases ha : activeMatch c.active i0 ∧ c.pointerDown
    · rw [if_pos ha]
      exact ⟨h1, h2, h3, h4, h5⟩
    · rw [if_neg ha]
      have hact : ∀ a, updActive c.active pts0 = some a → a.id ≠ i := by
        intro a hupd
        obtain ⟨y, hy, hid⟩ := updActive_id hupd
        rw [hid]
        exact h5 y hy
      cases hex : c.strokes.find? (fun x => x.id == i0) with
      | some x =>
        show CommittedPinned
          (if x.userId = c.myUserId then c
           else if activeMatch c.active i0 ∧ ¬ c.pointerDown then
             { c with active := updActive c.active pts0 }
           else { c with strokes := patchFirstC c.strokes i0 pts0 })
          i pts
        by_cases hu : x.userId = c.myUserId
        · rw [if_pos hu]
          exact ⟨h1, h2, h3, h4, h5⟩
        · rw [if_neg hu]
          by_cases ha2 : activeMatch c.active i0 ∧ ¬ c.pointerDown
          · rw [if_pos ha2]
            exact ⟨h1, h2, h3, h4, hact⟩
          · rw [if_neg ha2]
            refine ⟨h1, h2, ?_, ?_, h5⟩
            · exact exists_id_of_map_id_eq (patchFirstC_map_id c.strokes i0 pts0) h3
            · intro s' hs' hid
              have hs'mem : s' ∈ c.strokes :=
                patchFirstC_mem c.strokes i0 pts0 s' hs' (by rw [hid]; exact fun he => hne he.symm)
              exact h4 s' hs'mem hid
      | none =>
        show CommittedPinned
          (if activeMatch c.active i0 ∧ ¬ c.pointerDown then
             { c with active := updActive c.active pts0 }
           else c)
          i pts
        by_cases ha2 : activeMatch c.active i0 ∧ ¬ c.pointerDown
        · rw [if_pos ha2]
          exact ⟨h1, h2, h3, h4, hact⟩
        · rw [if_neg ha2]
          exact ⟨h1, h2, h3, h4, h5⟩

theorem keptOwn_ex {c : ClientState} {i : String}
    (h1 : i ∈ c.committedIds) (h3 : ∃ s ∈ c.strokes, s.id = i) :
    ∃ s' ∈ keptOwn c, s'.id = i := by
  obtain ⟨s0, hs0, hid⟩ := h3
  have hfilter : s0 ∈ c.strokes.filter
      (fun s => decide (s.id ∈ c.committedIds ∨ ownNonActive c s)) := by
    rw [List.mem_filter]
    refine ⟨hs0, ?_⟩
    rw [decide_eq_true_eq]
    exact Or.inl (by rw [hid]; exact h1)
  refine ⟨_, List.mem_map_of_mem _ hfilter, ?_⟩
  by_cases hc : s0.id ∈ c.committedIds
  · rw [if_pos hc]
    cases hl : lookupCoords c.committedCoords s0.id with
    | some p => exact hid
    | none => exact hid
  · rw [if_neg hc]
    exact hid

theorem keptOwn_pin {c : ClientState} {i : String} {pts : List Point}
    (h1 : i ∈ c.committedIds) (h2 : lookupCoords c.committedCoords i = some pts) :
    ∀ s' ∈ keptOwn c, s'.id = i → s'.points = pts := by
  intro s' hs' hid
  unfold keptOwn restorePins at hs'
  obtain ⟨s, hsmem, hmap⟩ := List.mem_map.mp hs'
  by_cases hc : s.id ∈ c.committedIds
  · rw [if_pos hc] at hmap
    cases hl : lookupCoords c.committedCoords s.id with
    | some p =>
      rw [hl] at hmap
      have hmap2 : { s with points := p } = s' := hmap
      have hsid : s.id = i := by rw [← hmap2] at hid; exact hid
      rw [hsid, h2] at hl
      have hp : pts = p := by injection hl
      rw [← hmap2, ← hp]
    | none =>
      rw [hl] at hmap
      have hmap2 : s = s' := hmap
      have hsid : s.id = i := by rw [hmap2]; exact hid
      rw [hsid, h2] at hl
      exact absurd hl (by simp)
  · rw [if_neg hc] at hmap
    have hmap2 : s = s' := hmap
    have hsid : s.id = i := by rw [hmap2]; exact hid
    exact absurd h1 (by rw [hsid] at hc; exact hc)

theorem snapshotForeign_not_committed {c : ClientState} {list : List CStroke} :
    ∀ s' ∈ snapshotForeign c list, s'.id ∉ c.committedIds := by
  intro s' hs'
  unfold snapshotForeign at hs'
  rw [List.mem_filter] at hs'
  have h := hs'.2
  rw [decide_eq_true_eq] at h
  exact h.1

theorem onReplaced_pinned {c : ClientState} {i : String} {pts : List Point}
    (h : CommittedPinned c i pts) (list : List CStroke) :
    CommittedPinned (onReplaced c list) i pts := by
  obtain ⟨h1, h2, h3, h4, h5⟩ := h
  have hkex := keptOwn_ex h1 h3
  have hkpin := keptOwn_pin (c := c) h1 h2
  have hpin2 : ∀ l0 : List CStroke,
      (∀ s' ∈ l0, s'.id = i → s'.points = pts) →
      ∀ s' ∈ jsSort cLE (snapshotForeign c list ++ keptOwn c ++ l0),
        s'.id = i → s'.points = pts := by
    intro l0 hl0 s' hs' hid
    have hmem := (jsSort_perm cLE _).mem_iff.mp hs'
    rcases List.mem_append.mp hmem with hm | hm
    · rcases List.mem_append.mp hm with hm2 | hm2
      · exact absurd (by rw [hid]; exact h1) (snapshotForeign_not_committed s' hm2)
      · exact hkpin s' hm2 hid
    · exact hl0 s' hm hid
  have hex2 : ∀ l0 : List CStroke,
      ∃ s' ∈ jsSort cLE (snapshotForeign c list ++ keptOwn c ++ l0), s'.id = i := by
    intro l0
    obtain ⟨s', hs', hid⟩ := hkex
    refine ⟨s', (jsSort_perm cLE _).mem_iff.mpr ?_, hid⟩
    exact List.mem_append_left _ (List.mem_append_right _ hs')
  have hpin1 : ∀ s' ∈ jsSort cLE (snapshotForeign c list ++ keptOwn c),
      s'.id = i → s'.points = pts := by
    intro s' hs' hid
    have hmem := (jsSort_perm cLE _).mem_iff.mp hs'
    rcases List.mem_append.mp hmem with hm | hm
    · exact absurd (by rw [hid]; exact h1) (snapshotForeign_not_committed s' hm)
    · exact hkpin s' hm hid
  have hex1 : ∃ s' ∈ jsSort cLE (snapshotForeign c list ++ keptOwn c), s'.id = i := by
    obtain ⟨s', hs', hid⟩ := hkex
    exact ⟨s', (jsSort_perm cLE _).mem_iff.mpr (List.mem_append_right _ hs'), hid⟩
  unfold onReplaced
  cases hA : c.active with
  | none =>
    show CommittedPinned
      { myUserId := c.myUserId
        strokes := jsSort cLE (snapshotForeign c list ++ keptOwn c)
        committedIds := c.committedIds
        committedCoords := c.committedCoords
        active := none
        pointerDown := c.pointerDown } i pts
    refine ⟨h1, h2, hex1, hpin1, ?_⟩
    intro a ha
    exact absurd ha (by simp)
  | some a0 =>
    have ha0 : a0.id ≠ i := h5 a0 hA
    show CommittedPinned
      (match list.find? (fun s => s.id == a0.id) with
       | none =>
         { myUserId := c.myUserId
           strokes := jsSort cLE (snapshotForeign c list ++ keptOwn c ++ [a0])
           committedIds := c.committedIds
           committedCoords := c.committedCoords
           active := some a0
           pointerDown := c.pointerDown }
       | some ais =>
         if c.pointerDown ∨ a0.id ∈ c.committedIds then
           { myUserId := c.myUserId
             strokes := jsSort cLE (snapshotForeign c list ++ keptOwn c ++ [a0])
             committedIds := c.committedIds
             committedCoords := c.committedCoords
             active := some a0
             pointerDown := c.pointerDown }
         else
           { myUserId := c.myUserId
             strokes := jsSort cLE (snapshotForeign c list ++ keptOwn c)
             committedIds := c.committedIds
             committedCoords := c.committedCoords
             active := some ais
             pointerDown := c.pointerDown }) i pts
    cases hF : list.find? (fun s => s.id == a0.id) with
    | none =>
      refine ⟨h1, h2, hex2 [a0], ?_, ?_⟩
      · refine hpin2 [a0] ?_
        intro s' hs' hid
        have he : s' = a0 := by simpa using hs'
        rw [he] at hid
        exact absurd hid ha0
      · intro a ha
        injection ha with ha3
        rw [← ha3]
        exact ha0
    | some ais =>
      have haisid : ais.id = a0.id := by
        have hp := List.find?_some hF
        rw [beq_iff_eq] at hp
        exact hp
      show CommittedPinned
        (if c.pointerDown ∨ a0.id ∈ c.committedIds then
           { myUserId := c.myUserId
             strokes := jsSort cLE (snapshotForeign c list ++ keptOwn c ++ [a0])
             committedIds := c.committedIds
             committedCoords := c.committedCoords
             active := some a0
             pointerDown := c.pointerDown }
         else
           { myUserId := c.myUserId
             strokes := jsSort cLE (snapshotForeign c list ++ keptOwn c)
             committedIds := c.committedIds
             committedCoords := c.committedCoords
             active := some ais
             pointerDown := c.pointerDown }) i pts
      by_cases hcond : c.pointerDown = true ∨ a0.id ∈ c.committedIds
      · rw [if_pos hcond]
        refine ⟨h1, h2, hex2 [a0], ?_, ?_⟩
        · refine hpin2 [a0] ?_
          intro s' hs' hid
          have he : s' = a0 := by simpa using hs'
          rw [he] at hid
          exact absurd hid ha0
        · intro a ha
          injection ha with ha3
          rw [← ha3]
          exact ha0
      · rw [if_neg hcond]
        refine ⟨h1, h2, hex1, hpin1, ?_⟩
        intro a ha
        injection ha with ha3
        rw [← ha3, haisid]
        exact ha0

theorem applyEvent_pinned {c : ClientState} {i : String} {pts : List Point}
    (h : CommittedPinned c i pts) (e : CEvent) :
    CommittedPinned (applyEvent c e) i pts := by
  cases e with
  | added st => exact onAdded_pinned h st
  | patched i0 pts0 => exact onPatched_pinned h i0 pts0
  | replaced list => exact onReplaced_pinned h list

/-- Concrete point fixtures for the counterexamples and witnesses. -/
def p1 : Point := ⟨1, 1, 1⟩

def p2 : Point := ⟨2, 2, 2⟩

def p3 : Point := ⟨3, 3, 3⟩

/-- Two operations by the same author with the same authored timestamp. -/
def opU1 : OpIn :=
  { id := "a", userId := "u", points := [], timestamp := some 1,
    serverTimestamp := none, isDeleted := false }

def opU2 : OpIn :=
  { id := "b", userId := "u", points := [], timestamp := some 1,
    serverTimestamp := none, isDeleted := false }

/-- Both appended in the same server millisecond: a full sort-key tie. -/
def sTie : DrawingState := appendOp 1 (appendOp 1 initState opU1) opU2

/-- The same two operations delivered in the opposite arrival order. -/
def sTieRev : DrawingState := appendOp 1 (appendOp 1 initState opU2) opU1

/-- Two operations with distinct sort keys, in both arrival orders. -/
def opV1 : OpIn :=
  { id := "a", userId := "u", points := [], timestamp := some 1,
    serverTimestamp := none, isDeleted := false }

def opV2 : OpIn :=
  { id := "b", userId := "v", points := [], timestamp := some 2,
    serverTimestamp := none, isDeleted := false }

def sV1 : DrawingState := appendOp 5 (appendOp 5 initState opV1) opV2

def sV2 : DrawingState := appendOp 5 (appendOp 5 initState opV2) opV1

/-- C3 counterexample fixtures: one locally committed stroke, then the empty
snapshot that `history:clear` broadcasts. -/
def committedStroke : CStroke :=
  { id := "x", userId := "me", mode := "draw", color := "black", width := 2,
    points := [p1], timestamp := some 1, serverTimestamp := some 1,
    isDeleted := false }

def clientC0 : ClientState :=
  { myUserId := "me", strokes := [committedStroke], committedIds := ["x"],
    committedCoords := [("x", [p1])], active := none, pointerDown := false }

/-- C3 (corrected): once an operation is Committed (its id is in
`locallyCommittedStrokes` with pinned coordinates), no sequence of
`op.added` (`stroke:append`), `op.patched` (`stroke:patch`) or
`log.replaced` (`state:replace`) events changes its point geometry — and
this includes the empty `state:replace` snapshot that follows a
`log.clear`: contrary to the claim's exception clause the pins are never
discarded, the committed stroke is kept and the client does not adopt the
empty snapshot. -/
theorem C3_committed_pin_preserved (c : ClientState) (i : String) (pts : List Point)
    (h : CommittedPinned c i pts) (evs : List CEvent) :
    CommittedPinned (applyEvents c evs) i pts := by
  induction evs generalizing c with
  | nil => exact h
  | cons e rest ih => exact ih _ (applyEvent_pinned h e)

/-- C3 counterexample: after the empty snapshot broadcast by `log.clear`,
the client still holds the committed stroke and its pins, so the claim's
"clear discards all local pins unconditionally and the client adopts the
(empty) snapshot" is false on the code. -/
theorem C3_counterexample :
    (applyEvent clientC0 (CEvent.replaced [])).strokes = [committedStroke] ∧
    (applyEvent clientC0 (CEvent.replaced [])).strokes ≠ [] ∧
    (applyEvent clientC0 (CEvent.replaced [])).committedIds = ["x"] ∧
    (applyEvent clientC0 (CEvent.replaced [])).committedCoords = [("x", [p1])] := by
  refine ⟨?_, ?_, ?_, ?_⟩ <;> decide

/-- C3 witness: the committed pin of `clientC0` survives a clear snapshot, a
patch for its id and a foreign echo of its id. -/
theorem C3_committed_pin_preserved_witness :
    CommittedPinned
      (applyEvents clientC0
        [CEvent.replaced [], CEvent.patched "x" [p2, p3],
         CEvent.added { committedStroke with points := [p2], userId := "other" }])
      "x" [p1] :=
  C3_committed_pin_preserved clientC0 "x" [p1]
    ⟨by decide, by decide, by decide, by decide,
     fun a ha => Option.noConfusion ha⟩
    [CEvent.replaced [], CEvent.patched "x" [p2, p3],
     CEvent.added { committedStroke with points := [p2], userId := "other" }]

/-- C1 (corrected): for every reachable log state, the stored order is
sorted non-strictly by `(authoredAt, receivedAt, authorId)` — `timestamp`
first, `serverTimestamp` as tiebreak, then ascending `authorId`.  The
claim's strictness for the author tiebreak fails (see the counterexample):
two operations with identical keys keep their insertion order under the
stable sort and are not strictly ordered by `authorId`. -/
theorem C1_total_order (s : DrawingState) (hr : Reachable s) :
    s.ops.Pairwise (fun a b =>
      a.timestamp < b.timestamp ∨
        (a.timestamp = b.timestamp ∧
          (a.serverTimestamp < b.serverTimestamp ∨
            (a.serverTimestamp = b.serverTimestamp ∧ a.userId ≤ b.userId)))) :=
  reach_sorted hr

/-- C1 witness: the sortedness statement at a concrete two-operation room. -/
theorem C1_total_order_witness :
    sV1.ops.Pairwise (fun a b =>
      a.timestamp < b.timestamp ∨
        (a.timestamp = b.timestamp ∧
          (a.serverTimestamp < b.serverTimestamp ∨
            (a.serverTimestamp = b.serverTimestamp ∧ a.userId ≤ b.userId)))) :=
  C1_total_order sV1 (Reachable.append 5 opV2 (Reachable.append 5 opV1 Reachable.init))

/-- C1 counterexample: two distinct operations by the same author with equal
`authoredAt` and equal `receivedAt` sit adjacent in the log, but they are
not ordered strictly by ascending `authorId` — the comparison ties, in both
directions, because the author ids are equal. -/
theorem C1_counterexample :
    ∃ a b, sTie.ops = [a, b] ∧
      a.timestamp = b.timestamp ∧ a.serverTimestamp = b.serverTimestamp ∧
      a.id ≠ b.id ∧ ¬ (a.userId < b.userId) ∧ ¬ (b.userId < a.userId) := by
  refine ⟨mkStored 1 opU1, mkStored 1 opU2, by decide, by decide, by decide,
    by decide, ?_, ?_⟩
  · exact lt_irrefl "u"
  · exact lt_irrefl "u"

theorem strict_of_sorted_nodup {l : List StoredOp}
    (hs : l.Pairwise keyLE) (hn : (l.map opKey).Nodup) : l.Pairwise keyLT := by
  have hne : l.Pairwise (fun a b => opKey a ≠ opKey b) :=
    (@List.pairwise_map StoredOp (Nat × Nat × String) opKey (fun a b => a ≠ b) l).mp hn
  exact (hs.and hne).imp (fun h => pkLT_of_pkLE_of_ne h.1 h.2)

/-- C2 (corrected): two replicas that end with the same operation set (the
stored lists are permutations of one another) compute the same stored order,
provided no two distinct operations share the same
`(authoredAt, receivedAt, authorId)` key.  Without that proviso the claim
fails: full-key ties keep their per-replica insertion order (see the
counterexample). -/
theorem C2_order_determined (s1 s2 : DrawingState)
    (h1 : Reachable s1) (h2 : Reachable s2)
    (hset : s1.ops.Perm s2.ops)
    (hkeys : (s1.ops.map opKey).Nodup) :
    s1.ops = s2.ops := by
  have hs1 : s1.ops.Pairwise keyLE := reach_sorted h1
  have hs2 : s2.ops.Pairwise keyLE := reach_sorted h2
  have hkeys2 : (s2.ops.map opKey).Nodup := ((hset.map opKey).nodup_iff).mp hkeys
  have hstrict1 : s1.ops.Pairwise keyLT := strict_of_sorted_nodup hs1 hkeys
  have hstrict2 : s2.ops.Pairwise keyLT := strict_of_sorted_nodup hs2 hkeys2
  haveI : IsAntisymm StoredOp keyLT := ⟨fun _ _ hab hba => (pkLT_asymm hab hba).elim⟩
  exact List.eq_of_perm_of_sorted hset hstrict1 hstrict2

/-- C2 witness: two replicas that received the same two distinct-key
operations in opposite orders hold identical logs. -/
theorem C2_order_determined_witness : sV1.ops = sV2.ops :=
  C2_order_determined sV1 sV2
    (Reachable.append 5 opV2 (Reachable.append 5 opV1 Reachable.init))
    (Reachable.append 5 opV1 (Reachable.append 5 opV2 Reachable.init))
    (by
      have e1 : sV1.ops = [mkStored 5 opV1, mkStored 5 opV2] := by decide
      have e2 : sV2.ops = [mkStored 5 opV1, mkStored 5 opV2] := by decide
      rw [e1, e2])
    (by decide)

/-- C2 counterexample: two replicas receive the same two operations (a full
sort-key tie: same author, same authored and server timestamps) in opposite
arrival orders.  Both end with the same operation set — the logs are
permutations of each other — yet the computed orders differ, so the total
order is not a function of the operation set alone. -/
theorem C2_counterexample :
    Reachable sTie ∧ Reachable sTieRev ∧
    sTie.ops.Perm sTieRev.ops ∧ sTie.ops ≠ sTieRev.ops := by
  refine ⟨Reachable.append 1 opU2 (Reachable.append 1 opU1 Reachable.init),
          Reachable.append 1 opU1 (Reachable.append 1 opU2 Reachable.init), ?_, by decide⟩
  have e1 : sTie.ops = [mkStored 1 opU1, mkStored 1 opU2] := by decide
  have e2 : sTieRev.ops = [mkStored 1 opU2, mkStored 1 opU1] := by decide
  rw [e1, e2]
  exact List.Perm.swap _ _ _

/-- Two inputs with the same id, different authored timestamps. -/
def opDup1 : OpIn :=
  { id := "x", userId := "u", points := [], timestamp := some 1,
    serverTimestamp := none, isDeleted := false }

def opDup2 : OpIn :=
  { id := "x", userId := "u", points := [], timestamp := some 2,
    serverTimestamp := none, isDeleted := false }

def sDup : DrawingState := appendOp 1 (appendOp 1 initState opDup1) opDup2

/-- C4 (corrected): `appendOp` performs no id-based rejection at all — every
append, including one whose id already exists in the log, inserts a fresh
record, so the number of stored operations carrying that id always grows by
exactly one.  Id uniqueness within a room's log is therefore not an
invariant of the code. -/
theorem C4_append_not_idempotent (now : Nat) (s : DrawingState) (op : OpIn) :
    ((appendOp now s op).ops.countP (fun o => o.id == op.id))
      = s.ops.countP (fun o => o.id == op.id) + 1 := by
  show (jsSort opLE (s.ops ++ [mkStored now op])).countP (fun o => o.id == op.id)
    = s.ops.countP (fun o => o.id == op.id) + 1
  rw [(jsSort_perm opLE (s.ops ++ [mkStored now op])).countP_eq]
  rw [List.countP_append]
  simp [List.countP_cons, mkStored]

/-- C4 counterexample: a second append with an id already present in the log
is not rejected — the log ends with two operations with id `x`. -/
theorem C4_counterexample :
    sDup.ops.map (fun o => o.id) = ["x", "x"] ∧
    ¬ (sDup.ops.map (fun o => o.id)).Nodup := by
  refine ⟨?_, ?_⟩ <;> decide

/-- C5 (confirmed): for every reachable log state the stored array realizes
the total order (it is sorted by the `(authoredAt, receivedAt, authorId)`
key), and `globalUndo` tombstones exactly the last non-tombstoned operation
of that order, pushing its id onto the redo stack; when every operation is
already tombstoned (or the log is empty) it leaves the state unchanged. -/
theorem C5_undo_last_active (s : DrawingState) (hr : Reachable s) :
    s.ops.Pairwise keyLE ∧
    ((∀ o ∈ s.ops, o.isDeleted = true) → globalUndo s = s) ∧
    ((∃ o ∈ s.ops, o.isDeleted = false) →
      ∃ l₁ o l₂, s.ops = l₁ ++ o :: l₂ ∧ o.isDeleted = false ∧
        (∀ x ∈ l₂, x.isDeleted = true) ∧
        (globalUndo s).ops = l₁ ++ ({ o with isDeleted := true } :: l₂) ∧
        (globalUndo s).redoStack = o.id :: s.redoStack) :=
  ⟨reach_sorted hr, globalUndo_noop s, globalUndo_spec s⟩

/-- C5 witness: undo on a concrete two-operation room tombstones the later
operation and pushes its id. -/
theorem C5_undo_last_active_witness :
    ∃ l₁ o l₂, sV1.ops = l₁ ++ o :: l₂ ∧ o.isDeleted = false ∧
      (∀ x ∈ l₂, x.isDeleted = true) ∧
      (globalUndo sV1).ops = l₁ ++ ({ o with isDeleted := true } :: l₂) ∧
      (globalUndo sV1).redoStack = o.id :: sV1.redoStack :=
  (C5_undo_last_active sV1
    (Reachable.append 5 opV2 (Reachable.append 5 opV1 Reachable.init))).2.2
    (by decide)

/-- C6 (corrected): `globalUndo` followed immediately by `globalRedo`
restores the exact pre-undo state — visible set, order, and redo stack —
provided every operation id in the log is unique and non-empty.  Without
uniqueness, redo resurrects the first operation carrying the undone id
rather than the undone operation itself; an empty id is falsy and aborts the
redo (see the counterexample). -/
theorem C6_undo_redo_roundtrip (s : DrawingState)
    (hnodup : (s.ops.map (fun o => o.id)).Nodup)
    (hne : ∀ o ∈ s.ops, o.id ≠ "")
    (hact : ∃ o ∈ s.ops, o.isDeleted = false) :
    globalRedo (globalUndo s) = s := by
  obtain ⟨l₁, o, l₂, hops, ho, hdel, hu1, hu2⟩ := globalUndo_spec s hact
  have hoid : o.id ≠ "" :=
    hne o (by rw [hops]; exact List.mem_append_right _ (List.mem_cons_self o l₂))
  have hstate : globalUndo s =
      ⟨l₁ ++ ({ o with isDeleted := true } :: l₂), o.id :: s.redoStack⟩ := by
    rw [← hu1, ← hu2]
  rw [hstate]
  unfold globalRedo
  show (if o.id = "" then
          ({ ops := l₁ ++ ({ o with isDeleted := true } :: l₂),
             redoStack := s.redoStack } : DrawingState)
        else
          { ops := unmarkFirst (l₁ ++ ({ o with isDeleted := true } :: l₂)) o.id,
            redoStack := s.redoStack }) = s
  rw [if_neg hoid]
  have hl1 : ∀ x ∈ l₁, x.id ≠ o.id := by
    intro x hx he
    rw [hops, List.map_append, List.nodup_append] at hnodup
    exact hnodup.2.2 (List.mem_map_of_mem _ hx)
      (by rw [he]; exact List.mem_map_of_mem _ (List.mem_cons_self o l₂))
  rw [unmarkFirst_append l₁ ({ o with isDeleted := true }) l₂ o.id hl1 rfl]
  have hoo : ({ ({ o with isDeleted := true }) with isDeleted := false } : StoredOp) = o := by
    obtain ⟨a1, a2, a3, a4, a5, a6⟩ := o
    simp only at ho
    rw [ho]
  rw [hoo, ← hops]

/-- C6 witness: the round trip at a concrete two-operation room with unique
non-empty ids. -/
theorem C6_undo_redo_roundtrip_witness : globalRedo (globalUndo sV1) = sV1 :=
  C6_undo_redo_roundtrip sV1 (by decide) (by decide) (by decide)

/-- An input operation whose id is the empty string. -/
def opEmptyId : OpIn :=
  { id := "", userId := "u", points := [], timestamp := some 1,
    serverTimestamp := none, isDeleted := false }

def sEmptyId : DrawingState := appendOp 1 initState opEmptyId

/-- C6 counterexample: with a duplicated id, undo tombstones the later
operation but redo un-tombstones the earlier one, so the pre-undo visible
set is not restored; with an empty id, the popped falsy id aborts the redo
and the operation stays tombstoned. -/
theorem C6_counterexample :
    (globalRedo (globalUndo sDup)).ops.filter (fun o => !o.isDeleted)
      ≠ sDup.ops.filter (fun o => !o.isDeleted) ∧
    (globalRedo (globalUndo sEmptyId)).ops.filter (fun o => !o.isDeleted)
      ≠ sEmptyId.ops.filter (fun o => !o.isDeleted) := by
  refine ⟨?_, ?_⟩ <;> decide

/-- C7 (confirmed): every append clears the redo stack, so a redo right
after an undo-then-append is a no-op; redo with an empty redo stack is a
no-op; undo on an empty log is a no-op; and on every reachable state with an
empty log (where the redo stack is necessarily empty too) redo is a no-op.
None of these paths errors. -/
theorem C7_redo_invalidation :
    (∀ (now : Nat) (s : DrawingState) (op : OpIn), (appendOp now s op).redoStack = []) ∧
    (∀ (now : Nat) (s : DrawingState) (op : OpIn),
      globalRedo (appendOp now (globalUndo s) op) = appendOp now (globalUndo s) op) ∧
    (∀ s : DrawingState, s.redoStack = [] → globalRedo s = s) ∧
    (∀ s : DrawingState, s.ops = [] → globalUndo s = s) ∧
    (∀ s : DrawingState, Reachable s → s.ops = [] → globalRedo s = s) := by
  refine ⟨fun now s op => rfl, fun now s op => rfl, ?_, ?_, ?_⟩
  · intro s h
    unfold globalRedo
    rw [h]
  · intro s h
    unfold globalUndo
    rw [h]
    rfl
  · intro s hr h
    have hstack := reach_empty_stack hr h
    unfold globalRedo
    rw [hstack]

/-- C7 witness: the no-op behaviours at concrete states. -/
theorem C7_redo_invalidation_witness :
    globalRedo (appendOp 0 (globalUndo sV1) opDup1) = appendOp 0 (globalUndo sV1) opDup1 ∧
    globalRedo initState = initState ∧
    globalUndo initState = initState ∧
    globalRedo (clearState sV1) = clearState sV1 :=
  ⟨C7_redo_invalidation.2.1 0 sV1 opDup1,
   C7_redo_invalidation.2.2.1 initState rfl,
   C7_redo_invalidation.2.2.2.1 initState rfl,
   C7_redo_invalidation.2.2.2.2 (clearState sV1)
     (Reachable.clear (Reachable.append 5 opV2 (Reachable.append 5 opV1 Reachable.init)))
     rfl⟩

/-- A stroke input carrying two points. -/
def opPts : OpIn :=
  { id := "x", userId := "u", points := [p1, p2], timestamp := some 1,
    serverTimestamp := none, isDeleted := false }

def sPts : DrawingState := appendOp 1 initState opPts

/-- C8 (corrected): `patchPoints` does not append — it replaces the found
operation's whole point array with the incoming one (and leaves everything
else unchanged); a patch for an unknown id is a no-op.  There is no
finalization state in the log: `stroke:end` is a server-side no-op, so a
patch is applied the same way at any time. -/
theorem C8_patch_replaces (s : DrawingState) (i : String) (pts : List Point) :
    ((∀ x ∈ s.ops, x.id ≠ i) → patchPoints s i pts = s) ∧
    (∀ l₁ o l₂, s.ops = l₁ ++ o :: l₂ → (∀ x ∈ l₁, x.id ≠ i) → o.id = i →
      (patchPoints s i pts).ops = l₁ ++ ({ o with points := pts } :: l₂) ∧
      (patchPoints s i pts).redoStack = s.redoStack) := by
  constructor
  · intro h
    unfold patchPoints
    rw [patchList_no_match s.ops i pts h]
  · intro l₁ o l₂ hops hl1 hid
    constructor
    · show patchList s.ops i pts = _
      rw [hops, patchList_append l₁ o l₂ i pts hl1 hid]
    · rfl

/-- C8 witness: patching a concrete one-stroke room replaces its points, and
patching an unknown id leaves the empty room unchanged. -/
theorem C8_patch_replaces_witness :
    patchPoints initState "x" [p3] = initState ∧
    (patchPoints sPts "x" [p3]).ops = [] ++ ({ mkStored 1 opPts with points := [p3] } :: []) :=
  ⟨(C8_patch_replaces initState "x" [p3]).1 (by decide),
   ((C8_patch_replaces sPts "x" [p3]).2 [] (mkStored 1 opPts) [] (by decide)
     (by decide) (by decide)).1⟩

/-- C8 counterexample: a patch with a shorter point list removes previously
present points — the old points are not a prefix of, and need not even
occur in, the new sequence. -/
theorem C8_counterexample :
    sPts.ops.map (fun o => o.points) = [[p1, p2]] ∧
    (patchPoints sPts "x" [p3]).ops.map (fun o => o.points) = [[p3]] ∧
    p1 ∉ ([p3] : List Point) := by
  refine ⟨?_, ?_, ?_⟩ <;> decide

theorem map_serverTimestamp_of_map_key_eq {l l' : List StoredOp}
    (h : l'.map opKey = l.map opKey) :
    l'.map (fun o => o.serverTimestamp) = l.map (fun o => o.serverTimestamp) := by
  have h2 := congrArg (List.map (fun k : Nat × Nat × String => k.2.1)) h
  rw [List.map_map, List.map_map] at h2
  exact h2

theorem foldl_append_perm (recs : List (Nat × OpIn)) (s0 : DrawingState) :
    (recs.foldl (fun st p => appendOp p.1 st p.2) s0).ops.Perm
      (s0.ops ++ recs.map (fun p => mkStored p.1 p.2)) := by
  induction recs generalizing s0 with
  | nil => simp
  | cons r rest ih =>
    show (rest.foldl _ (appendOp r.1 s0 r.2)).ops.Perm _
    refine (ih (appendOp r.1 s0 r.2)).trans ?_
    refine (List.Perm.append_right _ (jsSort_perm opLE _)).trans ?_
    rw [List.append_assoc]
    exact List.Perm.refl _

theorem loadOps_perm (recs : List (Nat × OpIn)) (s : DrawingState) :
    (loadOps recs s).ops.Perm (recs.map (fun p => mkStored p.1 p.2)) := by
  have h := foldl_append_perm recs (clearState s)
  simpa using h

theorem foldl_append_stack (recs : List (Nat × OpIn)) (s0 : DrawingState)
    (h : s0.redoStack = []) :
    (recs.foldl (fun st p => appendOp p.1 st p.2) s0).redoStack = [] := by
  induction recs generalizing s0 with
  | nil => exact h
  | cons r rest ih => exact ih (appendOp r.1 s0 r.2) rfl

/-- A saved-snapshot record: `receivedAt` already set (to 5) and
tombstoned. -/
def opSnap : OpIn :=
  { id := "x", userId := "u", points := [p1], timestamp := some 1,
    serverTimestamp := some 5, isDeleted := true }

/-- C9 (corrected): `appendOp` assigns `receivedAt` (`serverTimestamp`)
unconditionally on every append — the stored record always carries the
current `Date.now()`, whatever the input carried; patch, undo and redo never
change any stored operation's `receivedAt`; and a snapshot reload through
clear-plus-append therefore reassigns `receivedAt` on every replayed record
instead of preserving the saved value. -/
theorem C9_receivedAt_overwritten :
    (∀ (now : Nat) (s : DrawingState) (op : OpIn),
      (mkStored now op).serverTimestamp = now ∧
      (appendOp now s op).ops.Perm (s.ops ++ [mkStored now op])) ∧
    (∀ (s : DrawingState) (i : String) (pts : List Point),
      (patchPoints s i pts).ops.map (fun o => o.serverTimestamp)
        = s.ops.map (fun o => o.serverTimestamp)) ∧
    (∀ s : DrawingState,
      (globalUndo s).ops.map (fun o => o.serverTimestamp)
        = s.ops.map (fun o => o.serverTimestamp)) ∧
    (∀ s : DrawingState,
      (globalRedo s).ops.map (fun o => o.serverTimestamp)
        = s.ops.map (fun o => o.serverTimestamp)) ∧
    (∀ (recs : List (Nat × OpIn)) (s : DrawingState),
      (loadOps recs s).ops.Perm (recs.map (fun p => mkStored p.1 p.2))) := by
  refine ⟨fun now s op => ⟨rfl, jsSort_perm opLE _⟩, ?_, ?_, ?_, loadOps_perm⟩
  · intro s i pts
    exact map_serverTimestamp_of_map_key_eq (patchList_map_key s.ops i pts)
  · intro s
    exact map_serverTimestamp_of_map_key_eq (globalUndo_ops_map_key s)
  · intro s
    exact map_serverTimestamp_of_map_key_eq (globalRedo_ops_map_key s)

/-- C9 counterexample: appending a saved record whose `receivedAt` is 5 at
server time 10 stores `receivedAt = 10` — the existing value is overwritten,
both on a direct re-append and on the room-load path. -/
theorem C9_counterexample :
    opSnap.serverTimestamp = some 5 ∧
    (appendOp 10 initState opSnap).ops.map (fun o => o.serverTimestamp) = [10] ∧
    (loadOps [(10, opSnap)] initState).ops.map (fun o => o.serverTimestamp) = [10] ∧
    (10 : Nat) ≠ 5 := by
  refine ⟨?_, ?_, ?_, ?_⟩ <;> decide

/-- C10 (confirmed): `appendOp` stores every input with the tombstone flag
forced to `false`, whatever the input's flag was; hence the room-load path —
`clear()` followed by one `appendOp` per saved record — holds exactly the
replayed records, all of them visible (even those saved as tombstoned), with
an empty redo stack. -/
theorem C10_append_forces_visible :
    (∀ (now : Nat) (s : DrawingState) (op : OpIn),
      (mkStored now op).isDeleted = false ∧
      mkStored now op ∈ (appendOp now s op).ops) ∧
    (∀ (recs : List (Nat × OpIn)) (s : DrawingState),
      (loadOps recs s).ops.Perm (recs.map (fun p => mkStored p.1 p.2)) ∧
      (∀ o ∈ (loadOps recs s).ops, o.isDeleted = false) ∧
      (loadOps recs s).redoStack = []) := by
  constructor
  · intro now s op
    refine ⟨rfl, ?_⟩
    exact (jsSort_perm opLE _).mem_iff.mpr
      (List.mem_append_right _ (List.mem_singleton.mpr rfl))
  · intro recs s
    refine ⟨loadOps_perm recs s, ?_, foldl_append_stack recs (clearState s) rfl⟩
    intro o ho
    have hmem : o ∈ recs.map (fun p => mkStored p.1 p.2) :=
      (loadOps_perm recs s).mem_iff.mp ho
    obtain ⟨p, _, hp⟩ := List.mem_map.mp hmem
    rw [← hp]
    rfl

/-- C10 witness: a saved tombstoned record is resurrected as visible by the
load path, which also empties the redo stack. -/
theorem C10_append_forces_visible_witness :
    (mkStored 7 opSnap).isDeleted = false ∧
    mkStored 7 opSnap ∈ (appendOp 7 initState opSnap).ops ∧
    (loadOps [(10, opSnap)] initState).ops.Perm
      ([(10, opSnap)].map (fun p => mkStored p.1 p.2)) ∧
    (∀ o ∈ (loadOps [(10, opSnap)] initState).ops, o.isDeleted = false) ∧
    (loadOps [(10, opSnap)] initState).redoStack = [] :=
  ⟨(C10_append_forces_visible.1 7 initState opSnap).1,
   (C10_append_forces_visible.1 7 initState opSnap).2,
   (C10_append_forces_visible.2 [(10, opSnap)] initState).1,
   (C10_append_forces_visible.2 [(10, opSnap)] initState).2.1,
   (C10_append_forces_visible.2 [(10, opSnap)] initState).2.2⟩
